import Mathlib

/-!
Verification of the numerical core of `src/script.js` (StockMarketAnalysis).

The JavaScript source is shallowly embedded as follows:

* JavaScript numbers are modelled as exact rationals (`ℚ`) in the parts of the
  pipeline that only use field operations (returns, covariance, the analysis
  summary), and as real numbers (`ℝ`) in the eigensolver, which uses the
  transcendental functions `Math.atan2`, `Math.cos` and `Math.sin`.
* For the error-handling claims the possibility of a non-finite JavaScript
  number (`NaN` from `undefined` arithmetic or `0/0`, or `±Infinity`) matters;
  there the numbers are modelled by `JsNum := Option ℚ`, with `none` standing
  for a non-finite value, and the arithmetic operators propagate `none`.
* JavaScript arrays are modelled by `List`; an out-of-range read (`undefined`
  in JavaScript) never happens on the executions the theorems quantify over.
  Square matrices inside the eigensolver are modelled as total functions
  `Nat → Nat → ℝ` together with the size `n`; the algorithm only reads and
  writes entries with both indices below `n`.
-/

namespace StockPCA

/-! ## ReturnsCalculator (`performAnalysis`, lines 96–104)

`for (let i = 1; i < prices.length; i++) returns.push((p[i] - p[i-1]) / p[i-1])`.
-/

/-- Simple returns of a price series: entry `i` is `(p[i+1] - p[i]) / p[i]`,
for `i` ranging over `[0, length-2]`, exactly as the loop in the source. -/
def computeReturns (p : List ℚ) : List ℚ :=
  (List.range (p.length - 1)).map fun i => (p.getD (i + 1) 0 - p.getD i 0) / p.getD i 0

/-! ## CovarianceEstimator (`calculateCovarianceMatrix`, lines 131–151) -/

/-- The mean used by the source: `ret.reduce((a, b) => a + b, 0) / ret.length`. -/
def seriesMean (r : List ℚ) : ℚ := r.sum / r.length

/-- One entry of the covariance matrix, exactly as the inner body of
`calculateCovarianceMatrix`: the centred cross products are accumulated over
`k < retI.length` and divided by `retI.length - 1`. -/
def sampleCov (ri rj : List ℚ) : ℚ :=
  (((List.range ri.length).map fun k =>
      (ri.getD k 0 - seriesMean ri) * (rj.getD k 0 - seriesMean rj)).sum) /
    ((ri.length : ℚ) - 1)

/-- The full covariance matrix: row `i`, column `j` holds
`sampleCov (returns i) (returns j)`. -/
def calculateCovarianceMatrix (rets : List (List ℚ)) : List (List ℚ) :=
  rets.map fun ri => rets.map fun rj => sampleCov ri rj

/-- Entry `(i, j)` of a list‑of‑lists matrix. -/
def entryOf (m : List (List ℚ)) (i j : Nat) : ℚ := (m.getD i []).getD j 0

/-! ## AnalysisInterpreter (`findMaxIndex`, lines 227–231)

`arr.reduce((maxIndex, item, index) => item > arr[maxIndex] ? index : maxIndex, 0)`:
the callback visits every index (`item` is `arr[index]`), starting from
accumulator `0`.
-/

/-- The reduce of `findMaxIndex` run over the first `m` element indices. -/
def maxScan {α : Type} [LinearOrder α] (d : α) (arr : List α) (m : Nat) : Nat :=
  (List.range m).foldl
    (fun maxIndex index => if arr.getD index d > arr.getD maxIndex d then index else maxIndex) 0

/-- The argmax scan of the source, generic in the ordered element type
(instantiated at `ℚ` and at `ℝ`); `d` is the never-used out-of-range default:
the reduce visits every index with accumulator starting at `0` and updates on
strict improvement `item > arr[maxIndex]`. -/
def findMaxIndex {α : Type} [LinearOrder α] (d : α) (arr : List α) : Nat :=
  maxScan d arr arr.length

/-! ## JavaScript numbers with non-finite values, and the error vocabulary -/

/-- A JavaScript number at the error-handling level of detail: `some x` is the
finite value `x`; `none` is a non-finite value — `NaN` arising from arithmetic
on `undefined` or from `0/0`, or `±Infinity` from division by zero. -/
abbrev JsNum := Option ℚ

/-- NaN-propagating subtraction. -/
def jsub : JsNum → JsNum → JsNum
  | some a, some b => some (a - b)
  | _, _ => none

/-- NaN-propagating multiplication (no operand is non-finite on the executions
considered here, so the JS `0 * Infinity` subtlety never arises). -/
def jmul : JsNum → JsNum → JsNum
  | some a, some b => some (a * b)
  | _, _ => none

/-- NaN-aware division: a zero divisor yields a non-finite result (`NaN` for
`0/0`, `±Infinity` otherwise), as does a non-finite operand. -/
def jdiv : JsNum → JsNum → JsNum
  | some a, some b => if b = 0 then none else some (a / b)
  | _, _ => none

/-- The error taxonomy named by the specification. The source never constructs
or throws any of these: `script.js` contains no error classes and no `throw`
statement anywhere in the analysis pipeline. -/
inductive AnalysisError
  | dataAlignment
  | degenerateDecomposition
  | insufficientData
  | divisionByZero
deriving DecidableEq

/-- One asset's price series: the ordered list of (date key, closing price)
pairs, in `Object.keys` insertion order. -/
abbrev PriceSeries := List (String × ℚ)

/-- The lookup `stockData[stock][date]`: `none` models JavaScript `undefined`
for a date key the asset's series does not contain. -/
def priceAt (s : PriceSeries) (d : String) : JsNum := s.lookup d

/-- `performAnalysis` line 89: the date axis is taken from the FIRST asset's
series only (`Object.keys(stockData[this.stocks[0]])`). -/
def datesOf (table : List PriceSeries) : List String := (table.headD []).map Prod.fst

/-- `performAnalysis` lines 92–94: every asset's prices are read off the first
asset's date axis; a missing date yields `undefined` (`none`). -/
def pricesOn (table : List PriceSeries) : List (List JsNum) :=
  table.map fun s => (datesOf table).map fun d => priceAt s d

/-- The returns loop (lines 96–104) over `JsNum`: a non-finite price
propagates into the return that touches it. -/
def jsReturns (p : List JsNum) : List JsNum :=
  (List.range (p.length - 1)).map fun i =>
    jdiv (jsub (p.getD (i + 1) none) (p.getD i none)) (p.getD i none)

/-- The slice of `performAnalysis` (lines 87–104) the specification calls
alignment validation followed by returns computation, with an `Except` giving
the specification's error vocabulary a home. The source performs no
validation and contains no `throw`, so the stage is total and always `.ok`. -/
def returnsStage (table : List PriceSeries) : Except AnalysisError (List (List JsNum)) :=
  .ok ((pricesOn table).map jsReturns)

/-- The summary record built at `performAnalysis` lines 123–127, at the
JavaScript-number level of detail. -/
structure JsSummary where
  mainTrendIndex : Nat
  varianceExplained : JsNum
  totalVariance : ℚ
deriving DecidableEq

/-- The interpretation stage (lines 123–127) over exact eigen-data:
`mainTrendIndex` is `findMaxIndex(eigenvectors[0])`, `varianceExplained` is
`eigenvalues[0] / eigenvalues.reduce((a,b) => a+b, 0) * 100` computed with
NaN-aware division (JS `0/0` is `NaN`), `totalVariance` is the plain sum.
The source performs no zero-sum check and cannot throw here, so the stage is
total and always `.ok`. -/
def analysisSummaryE (eigenvalues leadingVector : List ℚ) :
    Except AnalysisError JsSummary :=
  .ok { mainTrendIndex := findMaxIndex 0 leadingVector
        varianceExplained :=
          jmul (jdiv (some (eigenvalues.getD 0 0)) (some eigenvalues.sum)) (some 100)
        totalVariance := eigenvalues.sum }

/-! ## SymmetricEigenSolver (`jacobiMethod`, lines 159–225)

The working matrix `values` and the accumulator `vectors` are modelled as
total functions `Nat → Nat → ℝ`; the algorithm reads and writes only entries
with both indices below `n`. Where the JavaScript mutates arrays, the model
builds the updated function pointwise; the if-branches are ordered so that
when several source assignments target one cell the LAST one wins, making the
pointwise function literally the post-loop array contents.
-/

/-- The working pair of the solver: the working matrix `values` and the
eigenvector accumulator `vectors`. -/
structure JacobiState where
  A : Nat → Nat → ℝ
  V : Nat → Nat → ℝ

/-- The strict upper-triangle index pairs `(i, j)`, `i < j < n`, in the
row-major order of the scan loops of lines 170–178. -/
def upperPairs (n : Nat) : List (Nat × Nat) :=
  (List.range n).flatMap fun i => (List.range (n - (i + 1))).map fun d => (i, i + 1 + d)

/-- One comparison of the pivot scan (lines 172–176): the candidate `(p, q, max)`
is replaced on strict improvement `|values[i][j]| > max`, so the first
maximiser in scan order wins ties. -/
noncomputable def pivotStep (A : Nat → Nat → ℝ) (best : Nat × Nat × ℝ) (pr : Nat × Nat) :
    Nat × Nat × ℝ :=
  if |A pr.1 pr.2| > best.2.2 then (pr.1, pr.2, |A pr.1 pr.2|) else best

/-- The pivot scan (lines 167–178), starting from `max = 0, p = 0, q = 0`.
Returns `(p, q, max)`. -/
noncomputable def findPivot (n : Nat) (A : Nat → Nat → ℝ) : Nat × Nat × ℝ :=
  (upperPairs n).foldl (pivotStep A) (0, 0, 0)

/-- The convergence tolerance `1e-10` of line 180. -/
noncomputable def tol : ℝ := 1 / 10 ^ 10

/-- The largest off-diagonal magnitude, as computed by the scan. -/
noncomputable def maxOff (n : Nat) (A : Nat → Nat → ℝ) : ℝ := (findPivot n A).2.2

/-- `Math.atan2 y x`, embedded as the argument of the complex number
`x + y·i` (range `(-π, π]`, `atan2 0 0 = 0`, as in JavaScript). -/
noncomputable def atan2 (y x : ℝ) : ℝ := Complex.arg ⟨x, y⟩

/-- The update of the working matrix by one rotation (lines 187–204): rows and
columns `p`, `q` are recombined with the captured old values, the 2×2 diagonal
block is updated analytically, and the pivot pair is zeroed exactly. -/
noncomputable def rotateA (p q : Nat) (c s : ℝ) (A : Nat → Nat → ℝ) : Nat → Nat → ℝ :=
  fun x y =>
    if (x = p ∧ y = q) ∨ (x = q ∧ y = p) then 0
    else if x = q ∧ y = q then s * s * A p p + c * c * A q q + 2 * c * s * A p q
    else if x = p ∧ y = p then c * c * A p p + s * s * A q q - 2 * c * s * A p q
    else if x = q then s * A p y + c * A q y
    else if y = q then s * A p x + c * A q x
    else if x = p then c * A p y - s * A q y
    else if y = p then c * A p x - s * A q x
    else A x y

/-- The update of the accumulator by one rotation (lines 207–212): columns `p`
and `q` are recombined from their captured old values. -/
noncomputable def rotateV (p q : Nat) (c s : ℝ) (V : Nat → Nat → ℝ) : Nat → Nat → ℝ :=
  fun x y =>
    if y = q then s * V x p + c * V x q
    else if y = p then c * V x p - s * V x q
    else V x y

/-- One body of the rotation loop (lines 182–212), as run when the convergence
check of line 180 did not fire: pivot, angle, and both updates. -/
noncomputable def jacobiRotate (n : Nat) (st : JacobiState) : JacobiState :=
  let pv := findPivot n st.A
  let p := pv.1
  let q := pv.2.1
  let theta := 0.5 * atan2 (2 * st.A p q) (st.A q q - st.A p p)
  let c := Real.cos theta
  let s := Real.sin theta
  { A := rotateA p q c s st.A, V := rotateV p q c s st.V }

/-- The iteration loop of line 166: at most 50 iterations, each first checking
`max < 1e-10` (breaking if so) and otherwise rotating. -/
noncomputable def jacobiIter (n : Nat) : Nat → JacobiState → JacobiState
  | 0, st => st
  | fuel + 1, st =>
      if maxOff n st.A < tol then st else jacobiIter n fuel (jacobiRotate n st)

/-- The identity initialisation of the accumulator (lines 161–163). -/
def idMat : Nat → Nat → ℝ := fun i j => if i = j then 1 else 0

/-- The state after the full loop, starting from the input matrix and the
identity accumulator. -/
noncomputable def jacobiFinal (n : Nat) (matrix : Nat → Nat → ℝ) : JacobiState :=
  jacobiIter n 50 { A := matrix, V := idMat }

/-- Line 215: the eigenvalues are read off the diagonal. -/
def diagOf (st : JacobiState) : Nat → ℝ := fun i => st.A i i

/-- Stable descending insertion of index `i` into an index list: `i` goes
before the first index of strictly smaller key, hence after every
earlier-inserted index with an equal key. -/
noncomputable def insertDesc (ev : Nat → ℝ) (i : Nat) : List Nat → List Nat
  | [] => [i]
  | j :: rest => if ev i > ev j then i :: j :: rest else j :: insertDesc ev i rest

/-- The index sort of lines 218–219,
`indices.sort((a, b) => eigenvalues[b] - eigenvalues[a])`: ECMAScript sort is
stable, and a stable sort by eigenvalue descending is exactly the stable
descending insertion sort of the indices `0, 1, …, n-1` in order. -/
noncomputable def sortIndices (ev : Nat → ℝ) (n : Nat) : List Nat :=
  (List.range n).foldl (fun acc i => insertDesc ev i acc) []

/-- `jacobiMethod` (lines 159–225): the sorted eigenvalue list
`indices.map(i => eigenvalues[i])` and the sorted eigenvector list
`indices.map(i => vectors.map(row => row[i]))` (eigenvector `k` is column
`indices[k]` of the accumulator, read as a length-`n` list). -/
noncomputable def jacobiMethod (n : Nat) (matrix : Nat → Nat → ℝ) :
    List ℝ × List (List ℝ) :=
  ((sortIndices (diagOf (jacobiFinal n matrix)) n).map (diagOf (jacobiFinal n matrix)),
    (sortIndices (diagOf (jacobiFinal n matrix)) n).map fun i =>
      (List.range n).map fun r => (jacobiFinal n matrix).V r i)

/-- Dot product of two vectors given as lists. -/
noncomputable def dotList (a b : List ℝ) : ℝ := (List.zipWith (· * ·) a b).sum

/-- Inner product of columns `a` and `b` of an accumulator, over the `n`
rows the algorithm uses. -/
noncomputable def colDot (n : Nat) (V : Nat → Nat → ℝ) (a b : Nat) : ℝ :=
  Finset.sum (Finset.range n) fun r => V r a * V r b

/-- The trace of the `n × n` window of a matrix. -/
noncomputable def traceOf (n : Nat) (A : Nat → Nat → ℝ) : ℝ :=
  Finset.sum (Finset.range n) fun i => A i i

/-- Exact orthonormality of the first `n` columns of an accumulator. -/
def OrthoCols (n : Nat) (V : Nat → Nat → ℝ) : Prop :=
  ∀ a b, a < n → b < n → colDot n V a b = if a = b then 1 else 0

/-- Convergence before the iteration cap: some prefix of fewer than 50
rotations brings the largest off-diagonal magnitude below `1e-10`, so the
loop exits through the check of line 180. -/
def jacobiConverged (n : Nat) (matrix : Nat → Nat → ℝ) : Prop :=
  ∃ k, k < 50 ∧ maxOff n ((jacobiRotate n)^[k] { A := matrix, V := idMat }).A < tol

/-- The summary record of `performAnalysis` lines 123–127 over real
arithmetic (the formula level of claim C8). -/
structure AnalysisSummaryR where
  mainTrendIndex : Nat
  varianceExplained : ℝ
  totalVariance : ℝ

/-- Lines 123–127: `mainTrendStock` picks the asset at `findMaxIndex` of the
leading eigenvector; `varianceExplained` is
`eigenvalues[0] / eigenvalues.reduce((a,b) => a+b, 0) * 100`; `totalVariance`
is the same sum. -/
noncomputable def analysisOf (eigenvalues leadingVector : List ℝ) : AnalysisSummaryR :=
  { mainTrendIndex := findMaxIndex 0 leadingVector
    varianceExplained := eigenvalues.getD 0 0 / eigenvalues.sum * 100
    totalVariance := eigenvalues.sum }

/-! ## Generic helper lemmas -/

theorem getD_map_range {α : Type} (f : Nat → α) (n i : Nat) (h : i < n) (d : α) :
    ((List.range n).map f).getD i d = f i := by
  rw [List.getD_eq_getElem?_getD]
  simp [List.getElem?_map, List.getElem?_range, h]

theorem sum_map_range_eq_finset_sum {α : Type} [AddCommMonoid α] (f : Nat → α) (n : Nat) :
    ((List.range n).map f).sum = Finset.sum (Finset.range n) f := by
  induction n with
  | zero => simp
  | succ m ih =>
      rw [List.range_succ, List.map_append, List.sum_append, Finset.sum_range_succ, ih]
      simp

theorem getD_map {α β : Type} (f : α → β) (l : List α) (i : Nat) (h : i < l.length)
    (d : β) (d₀ : α) : (l.map f).getD i d = f (l.getD i d₀) := by
  rw [List.getD_eq_getElem?_getD, List.getElem?_map, List.getElem?_eq_getElem h]
  rw [List.getD_eq_getElem?_getD, List.getElem?_eq_getElem h]
  rfl

theorem list_sum_eq_finset_sum_getD {M : Type} [AddCommMonoid M] (r : List M) :
    r.sum = Finset.sum (Finset.range r.length) fun t => r.getD t 0 := by
  induction r with
  | nil => simp
  | cons a l ih =>
      rw [List.sum_cons, List.length_cons, Finset.sum_range_succ']
      simp only [List.getD_cons_succ, List.getD_cons_zero]
      rw [ih, add_comm]

theorem getD_mem_of_lt {α : Type} (l : List α) (i : Nat) (h : i < l.length) (d : α) :
    l.getD i d ∈ l := by
  rw [List.getD_eq_getElem?_getD, List.getElem?_eq_getElem h]
  exact List.getElem_mem h

theorem misalignedExample_prices :
    pricesOn [[("d1", 100), ("d2", 110)], [("d1", 50), ("d3", 55)]] =
      [[some 100, some 110], [some 50, none]] := by
  simp [pricesOn, datesOf, priceAt, List.lookup]

theorem misalignedExample_returns :
    (pricesOn [[("d1", 100), ("d2", 110)], [("d1", 50), ("d3", 55)]]).map jsReturns =
      [[some (1/10)], [none]] := by
  rw [misalignedExample_prices]
  simp only [List.map_cons, List.map_nil]
  have h1 : jsReturns [some 100, some 110] = [some (1/10)] := by
    simp [jsReturns, List.range_succ, jdiv, jsub]
    norm_num
  have h2 : jsReturns [some 50, none] = [none] := by
    simp [jsReturns, List.range_succ, jdiv, jsub]
  rw [h1, h2]

/-! ## Claim C5 — returns computation -/

/-- C5: for every price series of length `T ≥ 2` with all prices nonzero, the
returns series has length exactly `T - 1`, entry `i` is
`(p[i+1] - p[i]) / p[i]` for every `i ≤ T - 2`, and on the concrete input
`[100, 110, 99]` the output is exactly `[1/10, -1/10]`. -/
theorem returns_spec (p : List ℚ) (hT : 2 ≤ p.length) (hz : ∀ x ∈ p, x ≠ 0) :
    (computeReturns p).length = p.length - 1 ∧
    (∀ i, i + 1 < p.length →
      (computeReturns p).getD i 0 = (p.getD (i + 1) 0 - p.getD i 0) / p.getD i 0) ∧
    computeReturns [100, 110, 99] = [1/10, -1/10] := by
  refine ⟨by simp [computeReturns], ?_, ?_⟩
  · intro i hi
    have hi' : i < p.length - 1 := by omega
    rw [computeReturns, getD_map_range _ _ _ hi']
  · norm_num [computeReturns, List.range_succ]

/-- Witness for C5 at the concrete series `[100, 110, 99]`. -/
theorem returns_spec_witness : computeReturns [100, 110, 99] = [1/10, -1/10] :=
  (returns_spec [100, 110, 99] (by norm_num) (by norm_num)).2.2

/-! ## Claims C3 and C4 — covariance estimator -/

theorem covarianceMatrix_entry (rets : List (List ℚ)) (i j : Nat)
    (hi : i < rets.length) (hj : j < rets.length) :
    entryOf (calculateCovarianceMatrix rets) i j =
      sampleCov (rets.getD i []) (rets.getD j []) := by
  rw [entryOf, calculateCovarianceMatrix, getD_map _ _ _ hi _ []]
  rw [getD_map _ _ _ hj _ []]

/-- C3: for `N` return series all of equal length `M ≥ 2`, every entry `(i, j)`
of the covariance matrix equals the unbiased sample covariance
`(Σ_k (r_i[k] - mean_i) · (r_j[k] - mean_j)) / (M - 1)` with
`mean_i = (Σ_k r_i[k]) / M`. -/
theorem covariance_entry_spec (rets : List (List ℚ)) (M : Nat)
    (hM : 2 ≤ M) (hlen : ∀ r ∈ rets, r.length = M)
    (i j : Nat) (hi : i < rets.length) (hj : j < rets.length) :
    entryOf (calculateCovarianceMatrix rets) i j =
      (Finset.sum (Finset.range M) fun k =>
        ((rets.getD i []).getD k 0 -
            (Finset.sum (Finset.range M) fun t => (rets.getD i []).getD t 0) / M) *
        ((rets.getD j []).getD k 0 -
            (Finset.sum (Finset.range M) fun t => (rets.getD j []).getD t 0) / M)) /
      ((M : ℚ) - 1) := by
  have hri : (rets.getD i []).length = M := hlen _ (getD_mem_of_lt rets i hi [])
  have hrj : (rets.getD j []).length = M := hlen _ (getD_mem_of_lt rets j hj [])
  rw [covarianceMatrix_entry rets i j hi hj, sampleCov, sum_map_range_eq_finset_sum]
  rw [seriesMean, seriesMean, list_sum_eq_finset_sum_getD, list_sum_eq_finset_sum_getD]
  rw [hri, hrj]

/-- Witness for C3: the covariance of the series `[1, 3]` and `[2, 4]` is `2`. -/
theorem covariance_entry_spec_witness :
    entryOf (calculateCovarianceMatrix [[1, 3], [2, 4]]) 0 1 = 2 := by
  have h := covariance_entry_spec [[1, 3], [2, 4]] 2 (by norm_num)
    (by intro r hr; simp only [List.mem_cons, List.not_mem_nil, or_false] at hr
        rcases hr with h | h <;> subst h <;> rfl)
    0 1 (by norm_num) (by norm_num)
  rw [h]
  norm_num [Finset.sum_range_succ]

/-- C4: for `N` return series all of equal length `M ≥ 2`, the covariance
matrix is symmetric: entry `(i, j)` equals entry `(j, i)` (exactly, in exact
arithmetic, hence within any floating-point tolerance). -/
theorem covariance_symm (rets : List (List ℚ)) (M : Nat)
    (hM : 2 ≤ M) (hlen : ∀ r ∈ rets, r.length = M)
    (i j : Nat) (hi : i < rets.length) (hj : j < rets.length) :
    entryOf (calculateCovarianceMatrix rets) i j =
      entryOf (calculateCovarianceMatrix rets) j i := by
  have hri : (rets.getD i []).length = M := hlen _ (getD_mem_of_lt rets i hi [])
  have hrj : (rets.getD j []).length = M := hlen _ (getD_mem_of_lt rets j hj [])
  rw [covarianceMatrix_entry rets i j hi hj, covarianceMatrix_entry rets j i hj hi]
  rw [sampleCov, sampleCov, hri, hrj]
  congr 1
  apply congrArg List.sum
  apply List.map_congr_left
  intro k hk
  ring

/-- Witness for C4 at the concrete pair of series `[1, 3]` and `[2, 4]`. -/
theorem covariance_symm_witness :
    entryOf (calculateCovarianceMatrix [[1, 3], [2, 4]]) 0 1 =
      entryOf (calculateCovarianceMatrix [[1, 3], [2, 4]]) 1 0 :=
  covariance_symm [[1, 3], [2, 4]] 2 (by norm_num)
    (by intro r hr; simp only [List.mem_cons, List.not_mem_nil, or_false] at hr
        rcases hr with h | h <;> subst h <;> rfl)
    0 1 (by norm_num) (by norm_num)

/-! ## Claim C10 — no alignment validation, no `DataAlignmentError` -/

/-- C10 counterexample: a concrete price table whose two assets do not share a
date key set (["d1", "d2"] versus ["d1", "d3"]), on which the pipeline does
not fail: it produces a returns bundle, computing the first asset's return
normally and a NaN return for the asset with the missing date. -/
theorem misaligned_no_error :
    (([("d1", (100 : ℚ)), ("d2", 110)] : PriceSeries).map Prod.fst ≠
      ([("d1", (50 : ℚ)), ("d3", 55)] : PriceSeries).map Prod.fst) ∧
    returnsStage [[("d1", 100), ("d2", 110)], [("d1", 50), ("d3", 55)]] =
      .ok [[some (1/10)], [none]] := by
  constructor
  · decide
  · show Except.ok ((pricesOn _).map jsReturns) = _
    rw [misalignedExample_returns]

/-- C10 amended: the pipeline performs no date-alignment validation and has no
failure path at all: for every input table the returns stage succeeds,
returning returns computed over the first asset's date axis; on the
misaligned table of the counterexample the misaligned asset's return is the
non-finite NaN while the aligned asset's return is still computed. -/
theorem no_alignment_validation :
    (∀ table : List PriceSeries,
        returnsStage table = .ok ((pricesOn table).map jsReturns)) ∧
    (pricesOn [[("d1", 100), ("d2", 110)], [("d1", 50), ("d3", 55)]]).map jsReturns =
      [[some (1/10)], [none]] := by
  exact ⟨fun table => rfl, misalignedExample_returns⟩

/-! ## Claim C9 — no degeneracy check, no `DegenerateDecompositionError` -/

/-- C9 counterexample: for the all-zero decomposition (two zero eigenvalues,
zero leading eigenvector, the outcome of constant prices for every asset) the
interpretation does not fail: it returns a summary whose `varianceExplained`
is the non-finite `0/0` and whose `totalVariance` is `0`. -/
theorem degenerate_no_error :
    (([0, 0] : List ℚ).sum = 0) ∧
    analysisSummaryE [0, 0] [0, 0] =
      .ok { mainTrendIndex := 0, varianceExplained := none, totalVariance := 0 } := by
  constructor
  · norm_num
  · rw [analysisSummaryE]
    have h1 : findMaxIndex 0 ([0, 0] : List ℚ) = 0 := by
      simp [findMaxIndex, maxScan, List.range_succ]
    have h2 : jmul (jdiv (some (([0, 0] : List ℚ).getD 0 0))
        (some ([0, 0] : List ℚ).sum)) (some 100) = none := by
      norm_num [jdiv, jmul]
    rw [h1, h2]
    norm_num

/-- C9 amended: the interpretation stage has no zero-sum check and no failure
path: whenever the eigenvalues sum to zero it still returns a summary, in
which `varianceExplained` is the non-finite JS value `NaN` (`0/0`) and
`totalVariance` is `0`. -/
theorem degenerate_sum_summary (eigenvalues leadingVector : List ℚ)
    (h : eigenvalues.sum = 0) :
    analysisSummaryE eigenvalues leadingVector =
      .ok { mainTrendIndex := findMaxIndex 0 leadingVector
            varianceExplained := none
            totalVariance := 0 } := by
  unfold analysisSummaryE
  rw [h]
  simp [jdiv, jmul]

/-- Witness for the amended C9 at the eigenvalue list `[1, -1]` (zero sum). -/
theorem degenerate_sum_summary_witness :
    analysisSummaryE [1, -1] [2, 3] =
      .ok { mainTrendIndex := findMaxIndex 0 [2, 3]
            varianceExplained := none
            totalVariance := 0 } :=
  degenerate_sum_summary [1, -1] [2, 3] (by norm_num)

/-! ## The pivot scan -/

theorem mem_upperPairs (n : Nat) (pr : Nat × Nat) :
    pr ∈ upperPairs n ↔ pr.1 < pr.2 ∧ pr.2 < n := by
  obtain ⟨a, b⟩ := pr
  constructor
  · intro h
    simp only [upperPairs, List.mem_flatMap, List.mem_map, List.mem_range] at h
    obtain ⟨i, hi, d, hd, he⟩ := h
    have he1 : i = a := congrArg Prod.fst he
    have he2 : i + 1 + d = b := congrArg Prod.snd he
    simp only
    omega
  · intro ⟨h1, h2⟩
    simp only at h1 h2
    simp only [upperPairs, List.mem_flatMap, List.mem_map, List.mem_range]
    exact ⟨a, by omega, b - (a + 1), by omega, by rw [Prod.mk.injEq]; omega⟩

theorem pivotFold_spec (A : Nat → Nat → ℝ) (l : List (Nat × Nat)) :
    ∀ b : Nat × Nat × ℝ,
      (l.foldl (pivotStep A) b = b ∨
        ((l.foldl (pivotStep A) b).1, (l.foldl (pivotStep A) b).2.1) ∈ l ∧
          (l.foldl (pivotStep A) b).2.2 =
            |A (l.foldl (pivotStep A) b).1 (l.foldl (pivotStep A) b).2.1|) ∧
      b.2.2 ≤ (l.foldl (pivotStep A) b).2.2 ∧
      ∀ pr ∈ l, |A pr.1 pr.2| ≤ (l.foldl (pivotStep A) b).2.2 := by
  induction l with
  | nil => exact fun b => ⟨Or.inl rfl, le_refl _, by simp⟩
  | cons pr rest ih =>
      intro b
      rw [List.foldl_cons]
      obtain ⟨hmem, hle, hall⟩ := ih (pivotStep A b pr)
      by_cases hc : |A pr.1 pr.2| > b.2.2
      · have hstep : pivotStep A b pr = (pr.1, pr.2, |A pr.1 pr.2|) := by
          rw [pivotStep, if_pos hc]
        rw [hstep] at hmem hle hall ⊢
        refine ⟨?_, ?_, ?_⟩
        · rcases hmem with he | ⟨hin, heq⟩
          · rw [he]
            exact Or.inr ⟨List.mem_cons_self _ _, rfl⟩
          · exact Or.inr ⟨List.mem_cons_of_mem _ hin, heq⟩
        · exact le_trans (le_of_lt hc) hle
        · intro x hx
          rcases List.mem_cons.mp hx with he | hin
          · rw [he]; exact hle
          · exact hall x hin
      · have hstep : pivotStep A b pr = b := by rw [pivotStep, if_neg hc]
        rw [hstep] at hmem hle hall ⊢
        refine ⟨?_, hle, ?_⟩
        · rcases hmem with he | ⟨hin, heq⟩
          · exact Or.inl he
          · exact Or.inr ⟨List.mem_cons_of_mem _ hin, heq⟩
        · intro x hx
          rcases List.mem_cons.mp hx with he | hin
          · rw [he]; exact le_trans (not_lt.mp hc) hle
          · exact hall x hin

theorem maxOff_nonneg (n : Nat) (A : Nat → Nat → ℝ) : 0 ≤ maxOff n A :=
  (pivotFold_spec A (upperPairs n) (0, 0, 0)).2.1

theorem abs_le_maxOff (n : Nat) (A : Nat → Nat → ℝ) (i j : Nat)
    (hij : i < j) (hj : j < n) : |A i j| ≤ maxOff n A :=
  (pivotFold_spec A (upperPairs n) (0, 0, 0)).2.2 (i, j)
    ((mem_upperPairs n (i, j)).mpr ⟨hij, hj⟩)

theorem pivot_valid (n : Nat) (A : Nat → Nat → ℝ) (h : 0 < maxOff n A) :
    (findPivot n A).1 < (findPivot n A).2.1 ∧ (findPivot n A).2.1 < n := by
  rcases (pivotFold_spec A (upperPairs n) (0, 0, 0)).1 with he | ⟨hin, _⟩
  · exfalso
    have h0 : maxOff n A = 0 := congrArg (fun t => t.2.2) he
    rw [h0] at h
    exact lt_irrefl 0 h
  · exact (mem_upperPairs n _).mp hin

theorem maxOff_lt_iff (n : Nat) (A : Nat → Nat → ℝ) (ε : ℝ) (hε : 0 < ε) :
    maxOff n A < ε ↔ ∀ i j, i < j → j < n → |A i j| < ε := by
  constructor
  · intro h i j hij hj
    exact lt_of_le_of_lt (abs_le_maxOff n A i j hij hj) h
  · intro h
    rcases (pivotFold_spec A (upperPairs n) (0, 0, 0)).1 with he | ⟨hin, heq⟩
    · have h0 : maxOff n A = 0 := congrArg (fun t => t.2.2) he
      rw [h0]; exact hε
    · have h2 := (mem_upperPairs n _).mp hin
      have hm : maxOff n A = |A (findPivot n A).1 (findPivot n A).2.1| := heq
      rw [hm]
      exact h _ _ h2.1 h2.2

theorem tol_pos : 0 < tol := by norm_num [tol]

/-! ## Claim C7 — termination and the convergence check -/

theorem jacobiIter_zero (n : Nat) (st : JacobiState) : jacobiIter n 0 st = st := rfl

theorem jacobiIter_succ (n fuel : Nat) (st : JacobiState) :
    jacobiIter n (fuel + 1) st =
      if maxOff n st.A < tol then st else jacobiIter n fuel (jacobiRotate n st) := rfl

theorem jacobiIter_iterate (n : Nat) :
    ∀ (fuel : Nat) (st : JacobiState),
      ∃ k, k ≤ fuel ∧ jacobiIter n fuel st = (jacobiRotate n)^[k] st ∧
        (∀ m, m < k → ¬ maxOff n ((jacobiRotate n)^[m] st).A < tol) ∧
        (k < fuel → maxOff n ((jacobiRotate n)^[k] st).A < tol) := by
  intro fuel
  induction fuel with
  | zero =>
      exact fun st => ⟨0, le_refl 0, rfl, fun m hm => absurd hm (by omega),
        fun h => absurd h (by omega)⟩
  | succ f ih =>
      intro st
      by_cases h : maxOff n st.A < tol
      · exact ⟨0, Nat.zero_le _,
          by rw [jacobiIter_succ, if_pos h, Function.iterate_zero_apply],
          fun m hm => absurd hm (by omega), fun _ => by simpa using h⟩
      · obtain ⟨k, hk, heq, hnot, hconv⟩ := ih (jacobiRotate n st)
        refine ⟨k + 1, by omega, ?_, ?_, ?_⟩
        · rw [jacobiIter_succ, if_neg h, heq, Function.iterate_succ_apply]
        · intro m hm
          cases m with
          | zero => simpa using h
          | succ m' =>
              rw [Function.iterate_succ_apply]
              exact hnot m' (by omega)
        · intro hk50
          rw [Function.iterate_succ_apply]
          exact hconv (by omega)

/-- C7: the solver always terminates. There is a number `k ≤ 50` of rotations
actually performed such that the final state is exactly `k` applications of
the rotation body; before each performed rotation the largest off-diagonal
magnitude was NOT below `1e-10`; and if the loop stopped before the cap of 50
then every strict-upper-triangle magnitude of the working matrix is below
`1e-10`. In every case — the cap case included — the solver returns the
(possibly only partially diagonalized) result; the model is a total function
and the source has no error signal. -/
theorem jacobi_terminates (n : Nat) (matrix : Nat → Nat → ℝ) :
    ∃ k, k ≤ 50 ∧
      jacobiFinal n matrix = (jacobiRotate n)^[k] { A := matrix, V := idMat } ∧
      (∀ m, m < k →
        ¬ ∀ i j, i < j → j < n →
            |((jacobiRotate n)^[m] { A := matrix, V := idMat }).A i j| < tol) ∧
      (k < 50 → ∀ i j, i < j → j < n →
          |((jacobiRotate n)^[k] { A := matrix, V := idMat }).A i j| < tol) := by
  obtain ⟨k, hk, heq, hnot, hconv⟩ :=
    jacobiIter_iterate n 50 { A := matrix, V := idMat }
  refine ⟨k, hk, heq, ?_, fun h => (maxOff_lt_iff n _ tol tol_pos).mp (hconv h)⟩
  intro m hm hall
  exact hnot m hm ((maxOff_lt_iff n _ tol tol_pos).mpr hall)

/-! ## Claim C1 — every rotation preserves the trace -/

theorem rotateA_diag_other (p q : Nat) (c s : ℝ) (A : Nat → Nat → ℝ) (r : Nat)
    (hrp : r ≠ p) (hrq : r ≠ q) : rotateA p q c s A r r = A r r := by
  simp [rotateA, hrp, hrq]

theorem rotateA_pp (p q : Nat) (hpq : p ≠ q) (c s : ℝ) (A : Nat → Nat → ℝ) :
    rotateA p q c s A p p = c * c * A p p + s * s * A q q - 2 * c * s * A p q := by
  simp [rotateA, hpq]

theorem rotateA_qq (p q : Nat) (hpq : p ≠ q) (c s : ℝ) (A : Nat → Nat → ℝ) :
    rotateA p q c s A q q = s * s * A p p + c * c * A q q + 2 * c * s * A p q := by
  simp [rotateA, hpq, Ne.symm hpq]

theorem traceOf_rotateA (n p q : Nat) (hpq : p < q) (hq : q < n)
    (c s : ℝ) (hcs : c ^ 2 + s ^ 2 = 1) (A : Nat → Nat → ℝ) :
    traceOf n (rotateA p q c s A) = traceOf n A := by
  have hp : p < n := lt_trans hpq hq
  have hpq' : p ≠ q := Nat.ne_of_lt hpq
  have hpmem : p ∈ Finset.range n := Finset.mem_range.mpr hp
  have hqmem : q ∈ (Finset.range n).erase p :=
    Finset.mem_erase.mpr ⟨Ne.symm hpq', Finset.mem_range.mpr hq⟩
  rw [traceOf, traceOf]
  rw [← Finset.add_sum_erase _ (fun i => rotateA p q c s A i i) hpmem]
  rw [← Finset.add_sum_erase _ (fun i => rotateA p q c s A i i) hqmem]
  rw [← Finset.add_sum_erase _ (fun i => A i i) hpmem]
  rw [← Finset.add_sum_erase _ (fun i => A i i) hqmem]
  have hrest :
      Finset.sum (((Finset.range n).erase p).erase q) (fun i => rotateA p q c s A i i) =
        Finset.sum (((Finset.range n).erase p).erase q) (fun i => A i i) := by
    apply Finset.sum_congr rfl
    intro r hr
    have h1 : r ≠ q := (Finset.mem_erase.mp hr).1
    have h2 : r ≠ p := (Finset.mem_erase.mp (Finset.mem_erase.mp hr).2).1
    exact rotateA_diag_other p q c s A r h2 h1
  rw [hrest, rotateA_pp p q hpq' c s A, rotateA_qq p q hpq' c s A]
  linear_combination (A p p + A q q) * hcs

theorem traceOf_jacobiRotate (n : Nat) (st : JacobiState) (h : ¬ maxOff n st.A < tol) :
    traceOf n (jacobiRotate n st).A = traceOf n st.A := by
  have hpos : 0 < maxOff n st.A := lt_of_lt_of_le tol_pos (not_lt.mp h)
  obtain ⟨h1, h2⟩ := pivot_valid n st.A hpos
  exact traceOf_rotateA n (findPivot n st.A).1 (findPivot n st.A).2.1 h1 h2 _ _
    (Real.cos_sq_add_sin_sq _) st.A

theorem traceOf_jacobiIter (n : Nat) :
    ∀ (fuel : Nat) (st : JacobiState),
      traceOf n (jacobiIter n fuel st).A = traceOf n st.A := by
  intro fuel
  induction fuel with
  | zero => exact fun st => rfl
  | succ f ih =>
      intro st
      rw [jacobiIter_succ]
      by_cases h : maxOff n st.A < tol
      · rw [if_pos h]
      · rw [if_neg h, ih, traceOf_jacobiRotate n st h]

/-! ## The index sort is a permutation -/

theorem insertDesc_perm (ev : Nat → ℝ) (i : Nat) :
    ∀ l : List Nat, (insertDesc ev i l).Perm (i :: l) := by
  intro l
  induction l with
  | nil => simp [insertDesc]
  | cons j rest ih =>
      simp only [insertDesc]
      by_cases h : ev i > ev j
      · rw [if_pos h]
      · rw [if_neg h]
        exact (ih.cons j).trans (List.Perm.swap i j rest)

theorem foldl_insertDesc_perm (ev : Nat → ℝ) :
    ∀ (l : List Nat) (acc : List Nat),
      (l.foldl (fun a i => insertDesc ev i a) acc).Perm (l ++ acc) := by
  intro l
  induction l with
  | nil => exact fun acc => List.Perm.refl acc
  | cons i rest ih =>
      intro acc
      rw [List.foldl_cons]
      have h1 := ih (insertDesc ev i acc)
      have h2 : (rest ++ insertDesc ev i acc).Perm (rest ++ (i :: acc)) :=
        List.Perm.append_left rest (insertDesc_perm ev i acc)
      have h3 : (rest ++ (i :: acc)).Perm (i :: (rest ++ acc)) := List.perm_middle
      exact h1.trans (h2.trans h3)

theorem sortIndices_perm (ev : Nat → ℝ) (n : Nat) :
    (sortIndices ev n).Perm (List.range n) := by
  have h := foldl_insertDesc_perm ev (List.range n) []
  simpa [sortIndices] using h

/-- C1: for every symmetric input, the sum of the eigenvalue list returned by
`jacobiMethod` is EXACTLY the trace of the input matrix (hence within any
tolerance), whether or not the solver converged: each rotation preserves the
trace of the working matrix and the final sort only permutes the diagonal. -/
theorem eigen_sum_eq_trace (n : Nat) (matrix : Nat → Nat → ℝ)
    (hsym : ∀ i j, i < n → j < n → matrix i j = matrix j i) :
    ((jacobiMethod n matrix).1).sum = traceOf n matrix := by
  have hperm : (sortIndices (diagOf (jacobiFinal n matrix)) n).Perm (List.range n) :=
    sortIndices_perm _ n
  have h1 : ((jacobiMethod n matrix).1).sum
      = ((List.range n).map (diagOf (jacobiFinal n matrix))).sum :=
    (hperm.map (diagOf (jacobiFinal n matrix))).sum_eq
  rw [h1, sum_map_range_eq_finset_sum]
  exact traceOf_jacobiIter n 50 { A := matrix, V := idMat }

/-- Witness for C1 at the concrete symmetric 2×2 matrix with diagonal 2 and
off-diagonal 1. -/
theorem eigen_sum_eq_trace_witness :
    ((jacobiMethod 2 (fun i j => if i = j then 2 else 1)).1).sum =
      traceOf 2 (fun i j => if i = j then 2 else 1) :=
  eigen_sum_eq_trace 2 _ (by
    intro i j hi hj
    by_cases h : i = j
    · rw [if_pos h, if_pos h.symm]
    · rw [if_neg h, if_neg (Ne.symm h)])

/-! ## Claim C2 — descending stable sort, applied to values and columns -/

theorem mem_insertDesc (ev : Nat → ℝ) (i x : Nat) (l : List Nat) :
    x ∈ insertDesc ev i l ↔ x = i ∨ x ∈ l := by
  rw [(insertDesc_perm ev i l).mem_iff, List.mem_cons]

theorem insertDesc_pairwise (ev : Nat → ℝ) (i : Nat) :
    ∀ l : List Nat,
      List.Pairwise (fun a b => ev b ≤ ev a ∧ (ev a = ev b → a < b)) l →
      (∀ j ∈ l, j < i) →
      List.Pairwise (fun a b => ev b ≤ ev a ∧ (ev a = ev b → a < b)) (insertDesc ev i l) := by
  intro l
  induction l with
  | nil => intro _ _; simp [insertDesc]
  | cons j rest ih =>
      intro hl hb
      obtain ⟨hj, hrest⟩ := List.pairwise_cons.mp hl
      simp only [insertDesc]
      by_cases h : ev i > ev j
      · rw [if_pos h]
        rw [List.pairwise_cons]
        refine ⟨?_, hl⟩
        intro x hx
        rcases List.mem_cons.mp hx with he | hin
        · subst he
          exact ⟨le_of_lt h, fun heq => absurd h (by rw [heq]; exact lt_irrefl _)⟩
        · have hxj := hj x hin
          have hlt : ev x < ev i := lt_of_le_of_lt hxj.1 h
          exact ⟨le_of_lt hlt, fun heq => absurd hlt (by rw [heq]; exact lt_irrefl _)⟩
      · rw [if_neg h]
        rw [List.pairwise_cons]
        constructor
        · intro x hx
          rcases (mem_insertDesc ev i x rest).mp hx with he | hin
          · subst he
            exact ⟨not_lt.mp h, fun _ => hb j (List.mem_cons_self j rest)⟩
          · exact hj x hin
        · exact ih hrest (fun x hx => hb x (List.mem_cons_of_mem j hx))

theorem sortIndices_pairwise_aux (ev : Nat → ℝ) :
    ∀ (l : List Nat) (acc : List Nat),
      List.Pairwise (· < ·) l →
      List.Pairwise (fun a b => ev b ≤ ev a ∧ (ev a = ev b → a < b)) acc →
      (∀ x ∈ l, ∀ j ∈ acc, j < x) →
      List.Pairwise (fun a b => ev b ≤ ev a ∧ (ev a = ev b → a < b))
        (l.foldl (fun a i => insertDesc ev i a) acc) := by
  intro l
  induction l with
  | nil => intro acc _ hacc _; simpa using hacc
  | cons i rest ih =>
      intro acc hlt hacc hcross
      obtain ⟨hilt, hrestlt⟩ := List.pairwise_cons.mp hlt
      rw [List.foldl_cons]
      apply ih
      · exact hrestlt
      · exact insertDesc_pairwise ev i acc hacc
          (fun j hj => hcross i (List.mem_cons_self i rest) j hj)
      · intro x hx j hj
        rcases (mem_insertDesc ev i j acc).mp hj with he | hin
        · subst he; exact hilt x hx
        · exact hcross x (List.mem_cons_of_mem i hx) j hin

theorem sortIndices_pairwise (ev : Nat → ℝ) (n : Nat) :
    List.Pairwise (fun a b => ev b ≤ ev a ∧ (ev a = ev b → a < b)) (sortIndices ev n) := by
  apply sortIndices_pairwise_aux ev (List.range n) []
  · exact List.pairwise_lt_range n
  · exact List.Pairwise.nil
  · intro x _ j hj
    exact absurd hj (List.not_mem_nil j)

/-- C2: the eigenvalue list returned by `jacobiMethod` is non-increasing; the
index list it is built from is a permutation of `0..n-1` which is sorted by
eigenvalue descending AND stable (two indices with equal eigenvalues keep
their original relative order); and for every position `k < n`, output
eigenvalue `k` is the diagonal entry at index `indices[k]` while output
eigenvector `k` is column `indices[k]` of the accumulator `V`, read out as a
length-`n` list — the same permutation applied to values and to columns. -/
theorem eigen_sorted_stable (n : Nat) (matrix : Nat → Nat → ℝ) :
    List.Chain' (fun a b => b ≤ a) (jacobiMethod n matrix).1 ∧
    (sortIndices (diagOf (jacobiFinal n matrix)) n).Perm (List.range n) ∧
    List.Pairwise (fun a b =>
        diagOf (jacobiFinal n matrix) b ≤ diagOf (jacobiFinal n matrix) a ∧
        (diagOf (jacobiFinal n matrix) a = diagOf (jacobiFinal n matrix) b → a < b))
      (sortIndices (diagOf (jacobiFinal n matrix)) n) ∧
    ∀ k, k < n →
      (jacobiMethod n matrix).1.getD k 0 =
        diagOf (jacobiFinal n matrix)
          ((sortIndices (diagOf (jacobiFinal n matrix)) n).getD k 0) ∧
      (jacobiMethod n matrix).2.getD k [] =
        ((List.range n).map fun r =>
          (jacobiFinal n matrix).V r
            ((sortIndices (diagOf (jacobiFinal n matrix)) n).getD k 0)) := by
  have hpair := sortIndices_pairwise (diagOf (jacobiFinal n matrix)) n
  have hperm := sortIndices_perm (diagOf (jacobiFinal n matrix)) n
  have hlen : (sortIndices (diagOf (jacobiFinal n matrix)) n).length = n := by
    rw [hperm.length_eq, List.length_range]
  refine ⟨?_, hperm, hpair, ?_⟩
  · have hmap : List.Pairwise (fun a b => b ≤ a)
        ((sortIndices (diagOf (jacobiFinal n matrix)) n).map (diagOf (jacobiFinal n matrix))) :=
      hpair.map (diagOf (jacobiFinal n matrix)) (fun a b hab => hab.1)
    exact hmap.chain'
  · intro k hk
    have hk' : k < (sortIndices (diagOf (jacobiFinal n matrix)) n).length := by
      rw [hlen]; exact hk
    exact ⟨getD_map _ _ k hk' 0 0, getD_map _ _ k hk' [] 0⟩

/-! ## Claim C6 — orthonormality of the accumulator columns -/

theorem colDot_formula (n p q a b : Nat) (c s : ℝ) (V : Nat → Nat → ℝ)
    (Pa Qa Ra Pb Qb Rb : ℝ)
    (ha : ∀ r, rotateV p q c s V r a = Pa * V r p + Qa * V r q + Ra * V r a)
    (hb : ∀ r, rotateV p q c s V r b = Pb * V r p + Qb * V r q + Rb * V r b) :
    colDot n (rotateV p q c s V) a b =
      Pa * Pb * colDot n V p p + Pa * Qb * colDot n V p q + Pa * Rb * colDot n V p b +
      Qa * Pb * colDot n V q p + Qa * Qb * colDot n V q q + Qa * Rb * colDot n V q b +
      Ra * Pb * colDot n V a p + Ra * Qb * colDot n V a q + Ra * Rb * colDot n V a b := by
  rw [colDot]
  have hterm : ∀ r ∈ Finset.range n,
      rotateV p q c s V r a * rotateV p q c s V r b =
        Pa * Pb * (V r p * V r p) + Pa * Qb * (V r p * V r q) + Pa * Rb * (V r p * V r b) +
        Qa * Pb * (V r q * V r p) + Qa * Qb * (V r q * V r q) + Qa * Rb * (V r q * V r b) +
        Ra * Pb * (V r a * V r p) + Ra * Qb * (V r a * V r q) + Ra * Rb * (V r a * V r b) := by
    intro r _
    rw [ha r, hb r]
    ring
  rw [Finset.sum_congr rfl hterm]
  simp only [Finset.sum_add_distrib, ← Finset.mul_sum]
  rfl

theorem orthoCols_idMat (n : Nat) : OrthoCols n idMat := by
  intro a b ha hb
  rw [colDot]
  have hterm : ∀ r ∈ Finset.range n,
      idMat r a * idMat r b = if r = a then (if a = b then (1 : ℝ) else 0) else 0 := by
    intro r _
    by_cases h1 : r = a <;> simp [idMat, h1]
  rw [Finset.sum_congr rfl hterm,
    Finset.sum_ite_eq' (Finset.range n) a (fun _ => if a = b then (1 : ℝ) else 0)]
  rw [if_pos (Finset.mem_range.mpr ha)]

theorem orthoCols_rotateV (n p q : Nat) (hpq : p ≠ q) (hp : p < n) (hq : q < n)
    (c s : ℝ) (hcs : c ^ 2 + s ^ 2 = 1) (V : Nat → Nat → ℝ) (hV : OrthoCols n V) :
    OrthoCols n (rotateV p q c s V) := by
  have hVz : ∀ x y, x < n → y < n → x ≠ y → colDot n V x y = 0 := by
    intro x y hx hy hxy
    have h := hV x y hx hy
    rwa [if_neg hxy] at h
  have hV1 : ∀ x, x < n → colDot n V x x = 1 := by
    intro x hx
    have h := hV x x hx hx
    rwa [if_pos rfl] at h
  have hQ : ∀ r, rotateV p q c s V r q = s * V r p + c * V r q + 0 * V r q := by
    intro r
    simp [rotateV]
  have hP : ∀ r, rotateV p q c s V r p = c * V r p + (-s) * V r q + 0 * V r p := by
    intro r
    simp [rotateV, hpq]
    ring
  have hO : ∀ x, x ≠ p → x ≠ q → ∀ r,
      rotateV p q c s V r x = 0 * V r p + 0 * V r q + 1 * V r x := by
    intro x hxp hxq r
    simp [rotateV, hxp, hxq]
  intro a b ha hb
  by_cases haq : a = q
  · rw [haq]
    by_cases hbq : b = q
    · rw [hbq]
      rw [colDot_formula n p q q q c s V s c 0 s c 0 hQ hQ]
      rw [hV1 p hp, hV1 q hq, hVz p q hp hq hpq, hVz q p hq hp (Ne.symm hpq)]
      rw [if_pos rfl]
      linear_combination hcs
    · by_cases hbp : b = p
      · rw [hbp]
        rw [colDot_formula n p q q p c s V s c 0 c (-s) 0 hQ hP]
        rw [hV1 p hp, hV1 q hq, hVz p q hp hq hpq, hVz q p hq hp (Ne.symm hpq)]
        rw [if_neg (Ne.symm hpq)]
        ring
      · rw [colDot_formula n p q q b c s V s c 0 0 0 1 hQ (hO b hbp hbq)]
        rw [hVz p b hp hb (fun h => hbp h.symm), hVz q b hq hb (fun h => hbq h.symm)]
        rw [if_neg (fun h => hbq h.symm)]
        ring
  · by_cases hap : a = p
    · rw [hap]
      by_cases hbq : b = q
      · rw [hbq]
        rw [colDot_formula n p q p q c s V c (-s) 0 s c 0 hP hQ]
        rw [hV1 p hp, hV1 q hq, hVz p q hp hq hpq, hVz q p hq hp (Ne.symm hpq)]
        rw [if_neg hpq]
        ring
      · by_cases hbp : b = p
        · rw [hbp]
          rw [colDot_formula n p q p p c s V c (-s) 0 c (-s) 0 hP hP]
          rw [hV1 p hp, hV1 q hq, hVz p q hp hq hpq, hVz q p hq hp (Ne.symm hpq)]
          rw [if_pos rfl]
          linear_combination hcs
        · rw [colDot_formula n p q p b c s V c (-s) 0 0 0 1 hP (hO b hbp hbq)]
          rw [hVz p b hp hb (fun h => hbp h.symm), hVz q b hq hb (fun h => hbq h.symm)]
          rw [if_neg (fun h => hbp h.symm)]
          ring
    · by_cases hbq : b = q
      · rw [hbq]
        rw [colDot_formula n p q a q c s V 0 0 1 s c 0 (hO a hap haq) hQ]
        rw [hVz a p ha hp hap, hVz a q ha hq haq]
        rw [if_neg haq]
        ring
      · by_cases hbp : b = p
        · rw [hbp]
          rw [colDot_formula n p q a p c s V 0 0 1 c (-s) 0 (hO a hap haq) hP]
          rw [hVz a p ha hp hap, hVz a q ha hq haq]
          rw [if_neg hap]
          ring
        · rw [colDot_formula n p q a b c s V 0 0 1 0 0 1 (hO a hap haq) (hO b hbp hbq)]
          rw [hV a b ha hb]
          ring

theorem orthoCols_jacobiRotate (n : Nat) (st : JacobiState) (h : ¬ maxOff n st.A < tol)
    (hV : OrthoCols n st.V) : OrthoCols n (jacobiRotate n st).V := by
  have hpos : 0 < maxOff n st.A := lt_of_lt_of_le tol_pos (not_lt.mp h)
  obtain ⟨h1, h2⟩ := pivot_valid n st.A hpos
  exact orthoCols_rotateV n (findPivot n st.A).1 (findPivot n st.A).2.1
    (Nat.ne_of_lt h1) (lt_trans h1 h2) h2 _ _ (Real.cos_sq_add_sin_sq _) st.V hV

theorem orthoCols_jacobiIter (n : Nat) :
    ∀ (fuel : Nat) (st : JacobiState), OrthoCols n st.V →
      OrthoCols n (jacobiIter n fuel st).V := by
  intro fuel
  induction fuel with
  | zero => exact fun st h => h
  | succ f ih =>
      intro st hV
      rw [jacobiIter_succ]
      by_cases h : maxOff n st.A < tol
      · rw [if_pos h]; exact hV
      · rw [if_neg h]; exact ih _ (orthoCols_jacobiRotate n st h hV)

theorem orthoCols_jacobiFinal (n : Nat) (matrix : Nat → Nat → ℝ) :
    OrthoCols n (jacobiFinal n matrix).V :=
  orthoCols_jacobiIter n 50 _ (orthoCols_idMat n)

theorem dotList_map_range (n : Nat) (f g : Nat → ℝ) :
    dotList ((List.range n).map f) ((List.range n).map g) =
      Finset.sum (Finset.range n) fun r => f r * g r := by
  rw [dotList, List.zipWith_map, List.zipWith_same, sum_map_range_eq_finset_sum]

theorem jacobi_vectors_dot (n : Nat) (matrix : Nat → Nat → ℝ) (j k : Nat)
    (hj : j < n) (hk : k < n) :
    dotList ((jacobiMethod n matrix).2.getD j []) ((jacobiMethod n matrix).2.getD k []) =
      if j = k then 1 else 0 := by
  have hperm := sortIndices_perm (diagOf (jacobiFinal n matrix)) n
  have hlen : (sortIndices (diagOf (jacobiFinal n matrix)) n).length = n := by
    rw [hperm.length_eq, List.length_range]
  have hj' : j < (sortIndices (diagOf (jacobiFinal n matrix)) n).length := by
    rw [hlen]; exact hj
  have hk' : k < (sortIndices (diagOf (jacobiFinal n matrix)) n).length := by
    rw [hlen]; exact hk
  have hvj : (jacobiMethod n matrix).2.getD j [] =
      ((List.range n).map fun r => (jacobiFinal n matrix).V r
        ((sortIndices (diagOf (jacobiFinal n matrix)) n).getD j 0)) :=
    getD_map _ _ j hj' [] 0
  have hvk : (jacobiMethod n matrix).2.getD k [] =
      ((List.range n).map fun r => (jacobiFinal n matrix).V r
        ((sortIndices (diagOf (jacobiFinal n matrix)) n).getD k 0)) :=
    getD_map _ _ k hk' [] 0
  have ha : (sortIndices (diagOf (jacobiFinal n matrix)) n).getD j 0 < n := by
    have hm := getD_mem_of_lt _ j hj' 0
    rw [hperm.mem_iff, List.mem_range] at hm
    exact hm
  have hb : (sortIndices (diagOf (jacobiFinal n matrix)) n).getD k 0 < n := by
    have hm := getD_mem_of_lt _ k hk' 0
    rw [hperm.mem_iff, List.mem_range] at hm
    exact hm
  rw [hvj, hvk, dotList_map_range]
  have hcd : (Finset.sum (Finset.range n) fun r =>
      (jacobiFinal n matrix).V r ((sortIndices (diagOf (jacobiFinal n matrix)) n).getD j 0) *
      (jacobiFinal n matrix).V r ((sortIndices (diagOf (jacobiFinal n matrix)) n).getD k 0)) =
      if (sortIndices (diagOf (jacobiFinal n matrix)) n).getD j 0 =
          (sortIndices (diagOf (jacobiFinal n matrix)) n).getD k 0 then 1 else 0 :=
    orthoCols_jacobiFinal n matrix _ _ ha hb
  rw [hcd]
  have hnd : (sortIndices (diagOf (jacobiFinal n matrix)) n).Nodup :=
    hperm.nodup_iff.mpr (List.nodup_range n)
  have hgj : (sortIndices (diagOf (jacobiFinal n matrix)) n).getD j 0 =
      (sortIndices (diagOf (jacobiFinal n matrix)) n).get ⟨j, hj'⟩ := by
    rw [List.getD_eq_getElem?_getD, List.getElem?_eq_getElem hj']
    rfl
  have hgk : (sortIndices (diagOf (jacobiFinal n matrix)) n).getD k 0 =
      (sortIndices (diagOf (jacobiFinal n matrix)) n).get ⟨k, hk'⟩ := by
    rw [List.getD_eq_getElem?_getD, List.getElem?_eq_getElem hk']
    rfl
  have hiff : ((sortIndices (diagOf (jacobiFinal n matrix)) n).getD j 0 =
      (sortIndices (diagOf (jacobiFinal n matrix)) n).getD k 0) ↔ j = k := by
    rw [hgj, hgk]
    constructor
    · intro he
      have hinj := List.nodup_iff_injective_get.mp hnd he
      exact congrArg Fin.val hinj
    · intro he
      subst he
      rfl
  exact if_congr hiff rfl rfl

/-- C6: whenever the solver converges before the iteration cap, the returned
eigenvectors are unit length and pairwise orthogonal within `1e-6`: the dot
product of output vectors `j` and `k` differs from the Kronecker delta by at
most `1e-6` (in fact, in exact arithmetic the accumulator's columns stay
exactly orthonormal, converged or not). -/
theorem eigenvectors_orthonormal (n : Nat) (matrix : Nat → Nat → ℝ)
    (hconv : jacobiConverged n matrix) (j k : Nat) (hj : j < n) (hk : k < n) :
    |dotList ((jacobiMethod n matrix).2.getD j []) ((jacobiMethod n matrix).2.getD k []) -
        (if j = k then 1 else 0)| ≤ 1 / 10 ^ 6 := by
  rw [jacobi_vectors_dot n matrix j k hj hk, sub_self, abs_zero]
  norm_num

/-- Witness for C6 at the all-zero 2×2 matrix, on which the solver converges
at the very first convergence check. -/
theorem eigenvectors_orthonormal_witness :
    |dotList ((jacobiMethod 2 (fun _ _ => 0)).2.getD 0 [])
        ((jacobiMethod 2 (fun _ _ => 0)).2.getD 1 []) -
      (if (0 : Nat) = 1 then 1 else 0)| ≤ 1 / 10 ^ 6 := by
  have h0 : maxOff 2 (fun _ _ => (0 : ℝ)) = 0 := by
    have hup : upperPairs 2 = [(0, 1)] := rfl
    rw [maxOff, findPivot, hup, List.foldl_cons, List.foldl_nil, pivotStep]
    rw [if_neg (by norm_num)]
  have hmax : maxOff 2
      ((jacobiRotate 2)^[0] { A := fun _ _ => (0 : ℝ), V := idMat }).A < tol := by
    rw [Function.iterate_zero_apply]
    show maxOff 2 (fun _ _ => (0 : ℝ)) < tol
    rw [h0]
    exact tol_pos
  exact eigenvectors_orthonormal 2 (fun _ _ => 0) ⟨0, by norm_num, hmax⟩ 0 1
    (by norm_num) (by norm_num)

/-! ## Claim C8 — the analysis summary -/

theorem maxScan_succ {α : Type} [LinearOrder α] (d : α) (arr : List α) (m : Nat) :
    maxScan d arr (m + 1) =
      if arr.getD m d > arr.getD (maxScan d arr m) d then m else maxScan d arr m := by
  rw [maxScan, maxScan, List.range_succ, List.foldl_append, List.foldl_cons, List.foldl_nil]

theorem maxScan_spec {α : Type} [LinearOrder α] (d : α) (arr : List α) :
    ∀ m, 1 ≤ m →
      maxScan d arr m < m ∧
      (∀ i, i < m → arr.getD i d ≤ arr.getD (maxScan d arr m) d) ∧
      (∀ i, i < maxScan d arr m → arr.getD i d < arr.getD (maxScan d arr m) d) := by
  intro m
  induction m with
  | zero => intro h; exact absurd h (by omega)
  | succ k ih =>
      intro _
      by_cases hk : k = 0
      · subst hk
        have h1 : maxScan d arr 1 = 0 := by
          rw [show (1 : Nat) = 0 + 1 from rfl, maxScan_succ]
          rw [show maxScan d arr 0 = 0 from rfl]
          rw [if_neg (lt_irrefl _)]
        rw [h1]
        refine ⟨by omega, ?_, ?_⟩
        · intro i hi
          have hi0 : i = 0 := by omega
          rw [hi0]
        · intro i hi
          exact absurd hi (by omega)
      · have hk1 : 1 ≤ k := by omega
        obtain ⟨hlt, hle, hstrict⟩ := ih hk1
        rw [maxScan_succ]
        by_cases hc : arr.getD k d > arr.getD (maxScan d arr k) d
        · rw [if_pos hc]
          refine ⟨by omega, ?_, ?_⟩
          · intro i hi
            rcases Nat.lt_succ_iff_lt_or_eq.mp hi with h | h
            · exact le_of_lt (lt_of_le_of_lt (hle i h) hc)
            · exact le_of_eq (congrArg (fun t => arr.getD t d) h)
          · intro i hi
            exact lt_of_le_of_lt (hle i hi) hc
        · rw [if_neg hc]
          refine ⟨by omega, ?_, hstrict⟩
          intro i hi
          rcases Nat.lt_succ_iff_lt_or_eq.mp hi with h | h
          · exact hle i h
          · rw [congrArg (fun t => arr.getD t d) h]
            exact not_lt.mp hc

/-- C8: given eigen-data with a nonempty leading eigenvector, the summary of
lines 123–127 has `mainTrendIndex` equal to the FIRST index attaining the
greatest signed component of the leading eigenvector (it is in range, no
component exceeds it, and every earlier component is strictly smaller);
`varianceExplained` equal to `eigenvalue[0]` divided by the sum of all the
eigenvalues, times 100; and `totalVariance` equal to that same sum. -/
theorem analysis_summary_spec (eigenvalues leadingVector : List ℝ)
    (hne : leadingVector ≠ []) :
    (analysisOf eigenvalues leadingVector).mainTrendIndex < leadingVector.length ∧
    (∀ i, i < leadingVector.length →
      leadingVector.getD i 0 ≤
        leadingVector.getD (analysisOf eigenvalues leadingVector).mainTrendIndex 0) ∧
    (∀ i, i < (analysisOf eigenvalues leadingVector).mainTrendIndex →
      leadingVector.getD i 0 <
        leadingVector.getD (analysisOf eigenvalues leadingVector).mainTrendIndex 0) ∧
    (analysisOf eigenvalues leadingVector).varianceExplained =
      eigenvalues.getD 0 0 /
        (Finset.sum (Finset.range eigenvalues.length) fun t => eigenvalues.getD t 0) * 100 ∧
    (analysisOf eigenvalues leadingVector).totalVariance =
      Finset.sum (Finset.range eigenvalues.length) fun t => eigenvalues.getD t 0 := by
  have hlen : 1 ≤ leadingVector.length := by
    cases leadingVector with
    | nil => exact absurd rfl hne
    | cons a l => simp
  obtain ⟨h1, h2, h3⟩ := maxScan_spec 0 leadingVector leadingVector.length hlen
  have hsum : eigenvalues.sum =
      Finset.sum (Finset.range eigenvalues.length) fun t => eigenvalues.getD t 0 :=
    list_sum_eq_finset_sum_getD eigenvalues
  refine ⟨h1, h2, h3, ?_, ?_⟩
  · show eigenvalues.getD 0 0 / eigenvalues.sum * 100 = _
    rw [hsum]
  · show eigenvalues.sum = _
    rw [hsum]

/-- Witness for C8 at eigenvalues `[2, 1]` and leading eigenvector `[1, 3, 2]`
(maximum `3` first attained at index `1`). -/
theorem analysis_summary_spec_witness :
    (analysisOf [2, 1] [1, 3, 2]).mainTrendIndex < ([1, 3, 2] : List ℝ).length ∧
    (∀ i, i < ([1, 3, 2] : List ℝ).length →
      ([1, 3, 2] : List ℝ).getD i 0 ≤
        ([1, 3, 2] : List ℝ).getD (analysisOf [2, 1] [1, 3, 2]).mainTrendIndex 0) ∧
    (∀ i, i < (analysisOf [2, 1] [1, 3, 2]).mainTrendIndex →
      ([1, 3, 2] : List ℝ).getD i 0 <
        ([1, 3, 2] : List ℝ).getD (analysisOf [2, 1] [1, 3, 2]).mainTrendIndex 0) ∧
    (analysisOf [2, 1] [1, 3, 2]).varianceExplained =
      ([2, 1] : List ℝ).getD 0 0 /
        (Finset.sum (Finset.range ([2, 1] : List ℝ).length)
          fun t => ([2, 1] : List ℝ).getD t 0) * 100 ∧
    (analysisOf [2, 1] [1, 3, 2]).totalVariance =
      Finset.sum (Finset.range ([2, 1] : List ℝ).length)
        fun t => ([2, 1] : List ℝ).getD t 0 :=
  analysis_summary_spec [2, 1] [1, 3, 2] (by simp)

end StockPCA
